/-
  FlavourGraph — verification of the recipe-suggestion pipeline.

  The algorithmic engine (ingredient graph, greedy candidate filter,
  backtracking combination optimizer, suggestion pipeline) is documented in
  the repository's markdown files; its pseudocode lives in the in-repo
  algorithm documentation.  The web frontend (dashboard ingredient parsing)
  and the Supabase middleware are present as TypeScript sources and are
  embedded directly.  Scores and edge weights are modelled as rationals.
-/
import Mathlib

/- Rational arithmetic is used in concrete evaluations; let it unfold. -/
set_option allowUnsafeReducibility true in
attribute [semireducible] Rat.add Rat.sub Rat.mul Rat.inv Rat.ofScientific

namespace FlavourGraph

/-! ### Data model -/

/-- Kinds of ingredient relationships (substitution | complementary | category). -/
inductive EdgeKind where
  | substitution
  | complementary
  | category
deriving DecidableEq, Repr

/-- An undirected weighted edge between two ingredients, with a kind. -/
structure Edge where
  src : String
  dst : String
  kind : EdgeKind
  weight : ℚ
deriving DecidableEq, Repr

/-- The ingredient relationship graph, as its edge list (adjacency is derived). -/
structure IngredientGraph where
  edges : List Edge
deriving DecidableEq, Repr

/-- A recipe: id, required ingredient names, optional cuisine, dietary tags.
    Only the fields the suggestion pipeline reads are modelled. -/
structure Recipe where
  id : Nat
  required : List String
  cuisine : Option String
  dietaryTags : List String
deriving DecidableEq, Repr

/-- A suggestion request: available ingredients, dietary restrictions
    (hard constraints), optional cuisine preference, max result count. -/
structure SuggestionRequest where
  available : List String
  restrictions : List String
  cuisinePref : Option String
  maxRecipes : Nat
deriving DecidableEq, Repr

/-- A recipe enriched with its per-request score, missing ingredients and
    substitution suggestions. -/
structure ScoredRecipe where
  recipe : Recipe
  matchScore : ℚ
  missing : List String
  subs : List (String × List (String × ℚ))
deriving DecidableEq, Repr

/-! ### Greedy candidate filter

Modelled from the spec: the `CandidateFilter` implementation is absent from
the supplied source; its scoring formula is given by the in-repo algorithm
documentation (`greedy_score`: `score = match_ratio * 100 - missing_count * 10`
over ingredient *sets*) and the spec's §4.2 contract (cuisine bonus +5,
dietary restrictions as a hard pre-scoring filter, empty-required recipes
excluded, sort by score desc / match_ratio desc / id, top `min(50, ·)`). -/

/-- The recipe's required ingredients as a set (duplicates collapsed). -/
def reqSet (r : Recipe) : List String := r.required.dedup

/-- Computes `|available ∩ required|` over ingredient sets. -/
def matchCount (avail : List String) (r : Recipe) : Nat :=
  ((reqSet r).filter (fun i => avail.contains i)).length

/-- The missing ingredients: `required − available` as a set difference. -/
def missingOf (avail : List String) (r : Recipe) : List String :=
  (reqSet r).filter (fun i => !(avail.contains i))

/-- Computes `missing_count = |required − available|`. -/
def missingCount (avail : List String) (r : Recipe) : Nat :=
  (missingOf avail r).length

/-- Computes `match_ratio = |available ∩ required| / |required|` (0 for empty required). -/
def matchRatio (avail : List String) (r : Recipe) : ℚ :=
  if (reqSet r).length = 0 then 0
  else (matchCount avail r : ℚ) / ((reqSet r).length : ℚ)

/-- Cuisine bonus: a fixed +5 when the recipe's cuisine equals the requested
    preference, else 0. -/
def cuisineBonus (req : SuggestionRequest) (r : Recipe) : ℚ :=
  match req.cuisinePref with
  | some c => if r.cuisine = some c then 5 else 0
  | none => 0

/-- A recipe violates the requested dietary restrictions when some requested
    restriction is not among its dietary tags. -/
def violatesB (restrictions : List String) (tags : List String) : Bool :=
  restrictions.any (fun d => !(tags.contains d))

/-- The greedy score: `match_ratio * 100 − missing_count * 10 + cuisine_bonus`
    (the dietary-violation "penalty" is the hard filter below). -/
def greedyScore (req : SuggestionRequest) (r : Recipe) : ℚ :=
  matchRatio req.available r * 100 - (missingCount req.available r : ℚ) * 10
    + cuisineBonus req r

/-- The recipes that survive the hard filters: non-empty required list and no
    dietary-restriction violation. -/
def eligible (req : SuggestionRequest) (corpus : List Recipe) : List Recipe :=
  corpus.filter (fun r => !(r.required.isEmpty) && !(violatesB req.restrictions r.dietaryTags))

/-- Three-level lexicographic "ranks at least as high" order:
    first criterion descending, second descending, third (id) ascending. -/
def lex3 (f g : α → ℚ) (h : α → Nat) (a b : α) : Prop :=
  f b < f a ∨ (f a = f b ∧ (g b < g a ∨ (g a = g b ∧ h a ≤ h b)))

instance lex3.decidableRel (f g : α → ℚ) (h : α → Nat) :
    DecidableRel (lex3 f g h) := fun _ _ => by
  unfold lex3; infer_instance

theorem lex3_total (f g : α → ℚ) (h : α → Nat) (a b : α) :
    lex3 f g h a b ∨ lex3 f g h b a := by
  unfold lex3
  rcases lt_trichotomy (f a) (f b) with hf | hf | hf
  · exact Or.inr (Or.inl hf)
  · rcases lt_trichotomy (g a) (g b) with hg | hg | hg
    · exact Or.inr (Or.inr ⟨hf.symm, Or.inl hg⟩)
    · rcases Nat.le_total (h a) (h b) with hh | hh
      · exact Or.inl (Or.inr ⟨hf, Or.inr ⟨hg, hh⟩⟩)
      · exact Or.inr (Or.inr ⟨hf.symm, Or.inr ⟨hg.symm, hh⟩⟩)
    · exact Or.inl (Or.inr ⟨hf, Or.inl hg⟩)
  · exact Or.inl (Or.inl hf)

theorem lex3_trans (f g : α → ℚ) (h : α → Nat) (a b c : α)
    (hab : lex3 f g h a b) (hbc : lex3 f g h b c) : lex3 f g h a c := by
  unfold lex3 at *
  rcases hab with h1 | ⟨e1, h1⟩
  · rcases hbc with h2 | ⟨e2, h2⟩
    · exact Or.inl (h2.trans h1)
    · exact Or.inl (e2 ▸ h1)
  · rcases hbc with h2 | ⟨e2, h2⟩
    · exact Or.inl (e1 ▸ h2)
    · refine Or.inr ⟨e1.trans e2, ?_⟩
      rcases h1 with h1 | ⟨eg1, h1⟩
      · rcases h2 with h2 | ⟨eg2, _⟩
        · exact Or.inl (h2.trans h1)
        · exact Or.inl (eg2 ▸ h1)
      · rcases h2 with h2 | ⟨eg2, h2⟩
        · exact Or.inl (eg1 ▸ h2)
        · exact Or.inr ⟨eg1.trans eg2, h1.trans h2⟩

instance lex3.isTotal (f g : α → ℚ) (h : α → Nat) : IsTotal α (lex3 f g h) :=
  ⟨lex3_total f g h⟩

instance lex3.isTrans (f g : α → ℚ) (h : α → Nat) : IsTrans α (lex3 f g h) :=
  ⟨lex3_trans f g h⟩

/-- The candidate order: greedy score descending, ties by match_ratio
    descending, then by recipe id ascending. -/
def candLE (req : SuggestionRequest) : Recipe → Recipe → Prop :=
  lex3 (greedyScore req) (matchRatio req.available) Recipe.id

instance candLE.decidableRel (req : SuggestionRequest) : DecidableRel (candLE req) :=
  lex3.decidableRel _ _ _

instance candLE.isTotal (req : SuggestionRequest) : IsTotal Recipe (candLE req) :=
  lex3.isTotal _ _ _

instance candLE.isTrans (req : SuggestionRequest) : IsTrans Recipe (candLE req) :=
  lex3.isTrans _ _ _

/-- The greedy candidate filter: hard-filter, sort by the candidate order,
    take the top 50. -/
def candidateFilter (req : SuggestionRequest) (corpus : List Recipe) : List Recipe :=
  ((eligible req corpus).insertionSort (candLE req)).take 50

/-! ### Ingredient graph queries

Modelled from the spec: the `IngredientGraph` service implementation is absent
from the supplied source; its contract is the spec's §4.1 together with the
in-repo algorithm documentation's pseudocode (shortest-path similarity
`1/(1+path_length)`, direct substitution neighbors, 2-hop paths scored as the
product of the two edge weights). -/

/-- The neighbor (with edge weight) contributed by one edge of kind `k`
    at vertex `a`, if any; the graph is undirected. -/
def edgeNeighbor (k : EdgeKind) (a : String) (e : Edge) : Option (String × ℚ) :=
  if e.kind = k then
    if e.src = a then some (e.dst, e.weight)
    else if e.dst = a then some (e.src, e.weight)
    else none
  else none

/-- The neighbor contributed by one edge of any kind at vertex `a`, if any. -/
def edgeNeighborAny (a : String) (e : Edge) : Option (String × ℚ) :=
  if e.src = a then some (e.dst, e.weight)
  else if e.dst = a then some (e.src, e.weight)
  else none

/-- Adjacency restricted to one edge kind. -/
def neighborsOfKind (g : IngredientGraph) (k : EdgeKind) (a : String) :
    List (String × ℚ) :=
  g.edges.filterMap (edgeNeighbor k a)

/-- Adjacency over the full graph (all edge kinds). -/
def neighborsAll (g : IngredientGraph) (a : String) : List (String × ℚ) :=
  g.edges.filterMap (edgeNeighborAny a)

/-- The graph's vertex set, derived from its edge list. -/
def graphVertices (g : IngredientGraph) : List String :=
  (g.edges.flatMap (fun e => [e.src, e.dst])).dedup

/-- "Scores at least as high": weight-descending order on (candidate, score)
    pairs. -/
def wge (p q : String × ℚ) : Prop := q.2 ≤ p.2

instance wge.decidableRel : DecidableRel wge := fun p q =>
  inferInstanceAs (Decidable (q.2 ≤ p.2))

instance wge.isTotal : IsTotal (String × ℚ) wge :=
  ⟨fun p q => (le_total q.2 p.2).imp (fun h => h) (fun h => h)⟩

instance wge.isTrans : IsTrans (String × ℚ) wge :=
  ⟨fun _ _ _ h1 h2 => le_trans h2 h1⟩

/-- Direct substitution-kind neighbors, sorted by edge weight descending. -/
def directSubs (g : IngredientGraph) (ing : String) : List (String × ℚ) :=
  (neighborsOfKind g .substitution ing).insertionSort wge

/-- 2-hop substitution paths, scored as the product of the two edge weights;
    the starting ingredient itself is excluded. -/
def twoHopSubs (g : IngredientGraph) (ing : String) : List (String × ℚ) :=
  (neighborsOfKind g .substitution ing).flatMap (fun p =>
    (neighborsOfKind g .substitution p.1).filterMap (fun q =>
      if q.1 ≠ ing then some (q.1, p.2 * q.2) else none))

/-- Executable minimum of two rationals. -/
def qmin (a b : ℚ) : ℚ := if a ≤ b then a else b

/-- Executable maximum of two rationals. -/
def qmax (a b : ℚ) : ℚ := if a ≤ b then b else a

/-- The highest score recorded for candidate `c` in `l`, at least `s`. -/
def maxScoreFor (c : String) (s : ℚ) (l : List (String × ℚ)) : ℚ :=
  l.foldr (fun p acc => if p.1 = c then qmax p.2 acc else acc) s

/-- Deduplication worker: emit each candidate at its first occurrence with the
    highest score recorded for it, skipping candidates already seen. -/
def dedupMaxAux (seen : List String) : List (String × ℚ) → List (String × ℚ)
  | [] => []
  | (c, s) :: rest =>
    if seen.contains c then dedupMaxAux seen rest
    else (c, maxScoreFor c s rest) :: dedupMaxAux (c :: seen) rest

/-- Deduplicate a (candidate, score) list, keeping the highest score per
    candidate; first-occurrence order is preserved. -/
def dedupMax (l : List (String × ℚ)) : List (String × ℚ) :=
  dedupMaxAux [] l

/-- The query `substitutions(ingredient, limit)`: direct substitution neighbors sorted by
    weight descending; when fewer than `limit`, extended with 2-hop paths,
    deduplicated keeping the highest score per candidate; truncated to
    `limit`. -/
def substitutions (g : IngredientGraph) (ing : String) (limit : Nat) :
    List (String × ℚ) :=
  if limit ≤ (directSubs g ing).length then (directSubs g ing).take limit
  else (dedupMax (directSubs g ing ++ (twoHopSubs g ing).insertionSort wge)).take limit

/-! ### Shortest-path similarity -/

/-- All simple weighted paths from `a` to `b` whose intermediate and final
    vertices are drawn from `allowed`; each path is its vertex list paired
    with its total weight.  The fuel bounds the recursion depth; with
    `allowed.length ≤ fuel` every such path is found. -/
def simplePathsFuel (g : IngredientGraph) :
    Nat → List String → String → String → List (List String × ℚ)
  | 0, _, a, b => if a = b then [([a], 0)] else []
  | fuel + 1, allowed, a, b =>
    if a = b then [([a], 0)]
    else
      (neighborsAll g a).flatMap (fun p =>
        if p.1 ∈ allowed then
          (simplePathsFuel g fuel (allowed.erase p.1) p.1 b).map
            (fun q => (a :: q.1, p.2 + q.2))
        else [])

/-- All simple weighted paths from `a` to `b` over the graph. -/
def allSimplePaths (g : IngredientGraph) (a b : String) : List (List String × ℚ) :=
  simplePathsFuel g ((graphVertices g).erase a).length ((graphVertices g).erase a) a b

/-- Executable minimum of a list of rationals (`none` for the empty list). -/
def listMinQ : List ℚ → Option ℚ
  | [] => none
  | x :: xs => some (xs.foldl qmin x)

/-- The shortest weighted path length from `a` to `b`, or `none` when no path
    exists. -/
def shortestPathLen (g : IngredientGraph) (a b : String) : Option ℚ :=
  listMinQ ((allSimplePaths g a b).map (fun q => q.2))

/-- The query `similarity(a, b) = 1 / (1 + shortest_weighted_path(a, b))`; 0 when no
    path exists (and 1 when `a = b`, via the zero-length path). -/
def similarity (g : IngredientGraph) (a b : String) : ℚ :=
  match shortestPathLen g a b with
  | none => 0
  | some d => 1 / (1 + d)

/-- The predicate `IsWalk g b vs w`: the vertex list `vs` is a walk through the full graph
    ending at `b`, with total edge weight `w` (each step follows an edge of
    any kind). -/
def IsWalk (g : IngredientGraph) (b : String) : List String → ℚ → Prop
  | [], _ => False
  | [v], w => v = b ∧ w = 0
  | v :: v' :: vs, w =>
      ∃ we, (v', we) ∈ neighborsAll g v ∧
        ∃ w', IsWalk g b (v' :: vs) w' ∧ w = we + w'

/-- A simple path from `a` to `b` with total weight `w`. -/
def IsSimplePath (g : IngredientGraph) (a b : String) (vs : List String) (w : ℚ) : Prop :=
  IsWalk g b vs w ∧ vs.head? = some a ∧ vs.Nodup

/-! ### Enrichment (graph pass over candidates)

Modelled from the spec: the enrichment stage is absent from the supplied
source; its contract is the spec's §4.3 together with the in-repo algorithm
documentation's `find_best_substitution` pseudocode (highest-scoring
substitution that is also available). -/

/-- Clamp a score to the interval [0,1]. -/
def clamp01 (x : ℚ) : ℚ := qmax 0 (qmin 1 x)

/-- Substitution suggestions for one missing ingredient:
    `substitutions(ingredient, 5)` restricted to the available set, ranked by
    score descending. -/
def subsFor (g : IngredientGraph) (avail : List String) (ing : String) :
    List (String × ℚ) :=
  ((substitutions g ing 5).filter (fun p => avail.contains p.1)).insertionSort wge

/-- The best available substitution score for a missing ingredient (0 when no
    available substitution exists). -/
def bestSubScore (g : IngredientGraph) (avail : List String) (ing : String) : ℚ :=
  match subsFor g avail ing with
  | [] => 0
  | p :: _ => p.2

/-- Computes `adjusted_score = match_ratio + Σ(best_substitution_score) / |required|`,
    clamped to [0,1]. -/
def adjustedScore (g : IngredientGraph) (avail : List String) (r : Recipe) : ℚ :=
  clamp01 (matchRatio avail r +
    ((missingOf avail r).map (bestSubScore g avail)).sum / ((reqSet r).length : ℚ))

/-- Enrich a candidate recipe with its adjusted match score, missing
    ingredients and per-missing-ingredient substitution suggestions. -/
def enrich (g : IngredientGraph) (avail : List String) (r : Recipe) : ScoredRecipe :=
  { recipe := r
    matchScore := adjustedScore g avail r
    missing := missingOf avail r
    subs := (missingOf avail r).map (fun i => (i, subsFor g avail i)) }

/-! ### Suggestion pipeline

Modelled from the spec: §4.5 — filter, enrich, sort by final score
descending, truncate to the requested max count. -/

/-- Final-score-descending order on scored recipes. -/
def sLE (a b : ScoredRecipe) : Prop := b.matchScore ≤ a.matchScore

instance sLE.decidableRel : DecidableRel sLE := fun a b =>
  inferInstanceAs (Decidable (b.matchScore ≤ a.matchScore))

instance sLE.isTotal : IsTotal ScoredRecipe sLE :=
  ⟨fun a b => (le_total b.matchScore a.matchScore).imp (fun h => h) (fun h => h)⟩

instance sLE.isTrans : IsTrans ScoredRecipe sLE :=
  ⟨fun _ _ _ h1 h2 => le_trans h2 h1⟩

/-- The suggestion pipeline: greedy candidate filter, graph enrichment, final
    sort by score descending, truncation to the requested max count. -/
def pipeline (g : IngredientGraph) (req : SuggestionRequest) (corpus : List Recipe) :
    List ScoredRecipe :=
  (((candidateFilter req corpus).map (enrich g req.available)).insertionSort sLE).take
    req.maxRecipes

/-! ### Backtracking combination optimizer

Modelled from the spec: §4.4, following the in-repo algorithm documentation's
`backtrack` pseudocode (base case at max size or exhausted list, bound
pruning, include-if-constraints-hold, skip). -/

/-- The best combination found so far, with its score. -/
structure BTResult where
  best : List ScoredRecipe
  bestScore : ℚ
deriving DecidableEq, Repr

/-- Replace the best solution when the running score beats it. -/
def updateBest (current : List ScoredRecipe) (score : ℚ) (st : BTResult) : BTResult :=
  if st.bestScore < score then ⟨current, score⟩ else st

/-- Distinct ingredient categories covered by a combination, given the
    ingredient-to-category assignment. -/
def categoriesOf (catOf : String → Option String) (combo : List ScoredRecipe) :
    List String :=
  (combo.flatMap (fun s => (reqSet s.recipe).filterMap catOf)).dedup

/-- The number of ingredients required by more than one selected recipe. -/
def overlapCount (combo : List ScoredRecipe) : Nat :=
  ((combo.flatMap (fun s => reqSet s.recipe)).dedup).countP
    (fun i => 2 ≤ combo.countP (fun s => (reqSet s.recipe).contains i))

/-- Combination score: sum of member adjusted match scores, plus a diversity
    bonus (distinct categories covered), minus an overlap penalty (ingredients
    required by more than one member); unit proportionality constants. -/
def comboScore (catOf : String → Option String) (combo : List ScoredRecipe) : ℚ :=
  (combo.map (fun s => s.matchScore)).sum + ((categoriesOf catOf combo).length : ℚ)
    - (overlapCount combo : ℚ)

/-- Score-descending order on rationals (for the bound-pruning estimate). -/
def qge (a b : ℚ) : Prop := b ≤ a

instance qge.decidableRel : DecidableRel qge := fun a b =>
  inferInstanceAs (Decidable (b ≤ a))

/-- The bound `max_possible_remaining_score`: the sum of the top `k` remaining
    per-candidate scores. -/
def remainingMaxScore (rem : List ScoredRecipe) (k : Nat) : ℚ :=
  (((rem.map (fun s => s.matchScore)).insertionSort qge).take k).sum

/-- The backtracking search: at each candidate, include it (when the hard
    constraints hold) or skip it; a branch terminates when the combination
    reaches the maximum size or the candidate list is exhausted, recording the
    best-scoring combination; bound pruning abandons branches that cannot beat
    the best known score. -/
def backtrack (ok : ScoredRecipe → Bool) (catOf : String → Option String)
    (maxR : Nat) :
    List ScoredRecipe → List ScoredRecipe → ℚ → BTResult → BTResult
  | [], current, score, st => updateBest current score st
  | r :: rest, current, score, st =>
    if maxR ≤ current.length then updateBest current score st
    else if score + remainingMaxScore (r :: rest) (maxR - current.length)
        ≤ st.bestScore then st
    else
      let st1 :=
        if ok r then
          backtrack ok catOf maxR rest (current ++ [r])
            (comboScore catOf (current ++ [r])) st
        else st
      backtrack ok catOf maxR rest current score st1

/-- The hard constraint: the recipe must not violate a requested dietary
    restriction. -/
def constraintOk (restrictions : List String) (s : ScoredRecipe) : Bool :=
  !(violatesB restrictions s.recipe.dietaryTags)

/-- The combination optimizer: run the backtracking search from the empty
    combination and return the best combination found. -/
def optimizeCombination (restrictions : List String)
    (catOf : String → Option String) (maxR : Nat)
    (cands : List ScoredRecipe) : List ScoredRecipe :=
  (backtrack (constraintOk restrictions) catOf maxR cands [] 0 ⟨[], 0⟩).best

/-! ### Frontend ingredient parsing (src/app/dashboard/page.tsx)

`searchRecipesByIngredients` builds the request's ingredient list as
`ingredients.split(',').map(i => i.trim()).filter(i => i)`. -/

/-- JavaScript `String.prototype.split(sep)` for a single-character separator,
    over character lists: splitting never drops a group, and an input with
    `n` separators yields `n + 1` groups. -/
def splitOnChar (sep : Char) : List Char → List (List Char)
  | [] => [[]]
  | c :: cs =>
    if c = sep then [] :: splitOnChar sep cs
    else
      match splitOnChar sep cs with
      | [] => [[c]]
      | g :: gs => (c :: g) :: gs

/-- Whitespace as removed by JavaScript `trim()` (the characters relevant to
    ingredient input). -/
def isSpaceChar (c : Char) : Bool :=
  c = ' ' || c = '\t' || c = '\n' || c = '\r'

/-- JavaScript `String.prototype.trim()` over character lists. -/
def trimChars (l : List Char) : List Char :=
  ((l.dropWhile isSpaceChar).reverse.dropWhile isSpaceChar).reverse

/-- Lower-casing over character lists. -/
def lowerChars (l : List Char) : List Char := l.map Char.toLower

/-- The dashboard's ingredient-list construction
    (`ingredients.split(',').map(i => i.trim()).filter(i => i)`): split the
    input on commas, trim each entry, drop empty entries. -/
def parseIngredients (s : List Char) : List (List Char) :=
  ((splitOnChar ',' s).map trimChars).filter (fun t => !(t.isEmpty))

/-- The spec's claimed normalization of the available-ingredient set: every
    entry lower-cased and trimmed, no duplicates.  (Stated from the spec's
    words, to be compared with `parseIngredients`.) -/
def NormalizedIngredientSet (l : List (List Char)) : Prop :=
  (∀ s ∈ l, lowerChars s = s ∧ trimChars s = s) ∧ l.Nodup

/-! ### Supabase middleware (src/lib/supabase/middleware.ts)

The route decision of `updateSession`: auth routes (prefix match) and public
routes (exact match) pass through; protected routes (prefix match) redirect
unauthenticated users to `/auth/login` with `redirectedFrom` set to the
original pathname.  Pathnames are modelled as character lists. -/

/-- A URL pathname, as its character list. -/
abbrev Path := List Char

/-- The protected route prefixes, /dashboard and /protected. -/
def protectedRoutes : List Path := ["/dashboard".data, "/protected".data]

/-- The listed auth routes. -/
def authRoutes : List Path :=
  ["/auth/login".data, "/auth/sign-up".data, "/auth/sign-up-success".data,
    "/auth/callback".data, "/auth/auth-code-error".data]

/-- The public routes, the root path and /about. -/
def publicRoutes : List Path := ["/".data, "/about".data]

/-- The middleware's outcome: pass the request through, or redirect to
    `/auth/login` carrying the original pathname as `redirectedFrom`. -/
inductive MwResponse where
  | next
  | redirectLogin (redirectedFrom : Path)
deriving DecidableEq, Repr

/-- The route decision of `updateSession`. -/
def updateSession (pathname : Path) (hasUser : Bool) : MwResponse :=
  if authRoutes.any (fun r => r.isPrefixOf pathname)
      || publicRoutes.contains pathname then
    .next
  else if protectedRoutes.any (fun r => r.isPrefixOf pathname) && !hasUser then
    .redirectLogin pathname
  else .next

instance NormalizedIngredientSet.decidable (l : List (List Char)) :
    Decidable (NormalizedIngredientSet l) := by
  unfold NormalizedIngredientSet; infer_instance

/-! ### Concrete fixtures for closed evaluations -/

/-- A small concrete ingredient graph (the spec's garlic → garlic_powder
    scenario plus a 2-hop chain and a complementary edge). -/
def gW : IngredientGraph :=
  ⟨[⟨"garlic", "garlic_powder", .substitution, 9/10⟩,
    ⟨"garlic", "onion", .substitution, 1/2⟩,
    ⟨"onion", "shallot", .substitution, 4/5⟩,
    ⟨"tomato", "basil", .complementary, 4/5⟩]⟩

/-- A concrete recipe requiring chicken, tomato, onion and garlic. -/
def rW : Recipe := ⟨1, ["chicken", "tomato", "onion", "garlic"], some "italian", []⟩

/-- A concrete request: garlic is missing but garlic_powder is available. -/
def reqW : SuggestionRequest :=
  ⟨["chicken", "tomato", "onion", "garlic_powder"], [], none, 12⟩

/-- A 51-recipe corpus (ids 0..50, identical otherwise), exercising the
    50-candidate cap. -/
def corpusW : List Recipe := (List.range 51).map (fun n => ⟨n, ["a"], none, []⟩)

/-- A request making every recipe of `corpusW` eligible with equal scores. -/
def reqKap : SuggestionRequest := ⟨["a"], [], none, 10⟩

/-- A concrete enriched candidate carrying a vegan tag, for the optimizer. -/
def srW : ScoredRecipe := ⟨⟨2, ["tofu"], none, ["vegan"]⟩, 1/2, [], []⟩

/-! ### Helper lemmas -/

theorem clamp01_bounds (x : ℚ) : 0 ≤ clamp01 x ∧ clamp01 x ≤ 1 := by
  unfold clamp01 qmax qmin
  split_ifs <;> constructor <;> linarith

theorem mem_pipeline (g : IngredientGraph) (req : SuggestionRequest)
    (corpus : List Recipe) {s : ScoredRecipe} (hs : s ∈ pipeline g req corpus) :
    ∃ r ∈ candidateFilter req corpus, s = enrich g req.available r := by
  unfold pipeline at hs
  have h1 := List.mem_of_mem_take hs
  rw [List.mem_insertionSort] at h1
  rw [List.mem_map] at h1
  obtain ⟨r, hr, rfl⟩ := h1
  exact ⟨r, hr, rfl⟩

theorem matchCount_nil_available (r : Recipe) : matchCount [] r = 0 := by
  simp [matchCount]

theorem matchRatio_nil_available (r : Recipe) : matchRatio [] r = 0 := by
  unfold matchRatio
  split
  · rfl
  · rw [matchCount_nil_available]
    simp

theorem subsFor_nil_available (g : IngredientGraph) (ing : String) :
    subsFor g [] ing = [] := by
  simp [subsFor]

theorem le_qmax_left (a b : ℚ) : a ≤ qmax a b := by
  unfold qmax
  split
  · assumption
  · exact le_refl a

theorem le_qmax_right (a b : ℚ) : b ≤ qmax a b := by
  unfold qmax
  split
  · exact le_refl b
  · rename_i h
    exact le_of_not_le h

theorem qmin_le_left (a b : ℚ) : qmin a b ≤ a := by
  unfold qmin
  split
  · exact le_refl a
  · rename_i h
    exact le_of_not_le h

theorem qmin_le_right (a b : ℚ) : qmin a b ≤ b := by
  unfold qmin
  split
  · assumption
  · exact le_refl b

theorem qmin_choice (a b : ℚ) : qmin a b = a ∨ qmin a b = b := by
  unfold qmin
  split
  · exact Or.inl rfl
  · exact Or.inr rfl

theorem foldl_qmin_spec (xs : List ℚ) :
    ∀ x : ℚ, (xs.foldl qmin x = x ∨ xs.foldl qmin x ∈ xs)
      ∧ xs.foldl qmin x ≤ x ∧ ∀ y ∈ xs, xs.foldl qmin x ≤ y := by
  induction xs with
  | nil => intro x; exact ⟨Or.inl rfl, le_refl x, by simp⟩
  | cons z zs ih =>
    intro x
    rw [List.foldl_cons]
    obtain ⟨hmem, hle, hall⟩ := ih (qmin x z)
    refine ⟨?_, ?_, ?_⟩
    · rcases hmem with h | h
      · rcases qmin_choice x z with h' | h'
        · exact Or.inl (h.trans h')
        · exact Or.inr (by rw [h, h']; exact List.mem_cons_self _ _)
      · exact Or.inr (List.mem_cons_of_mem _ h)
    · exact hle.trans (qmin_le_left _ _)
    · intro y hy
      rcases List.mem_cons.mp hy with h | h
      · subst h
        exact hle.trans (qmin_le_right x y)
      · exact hall y h

theorem listMinQ_spec (l : List ℚ) (h : l ≠ []) :
    ∃ d, listMinQ l = some d ∧ d ∈ l ∧ ∀ x ∈ l, d ≤ x := by
  match l, h with
  | x :: xs, _ =>
    obtain ⟨hmem, hle, hall⟩ := foldl_qmin_spec xs x
    refine ⟨xs.foldl qmin x, rfl, ?_, ?_⟩
    · rcases hmem with h' | h'
      · rw [h']; exact List.mem_cons_self _ _
      · exact List.mem_cons_of_mem _ h'
    · intro y hy
      rcases List.mem_cons.mp hy with h' | h'
      · rw [h']; exact hle
      · exact hall y h'

theorem neighborsAll_mem_vertices (g : IngredientGraph) (v x : String) (w : ℚ)
    (h : (x, w) ∈ neighborsAll g v) : x ∈ graphVertices g := by
  unfold neighborsAll at h
  rw [List.mem_filterMap] at h
  obtain ⟨e, he, hne⟩ := h
  unfold edgeNeighborAny at hne
  unfold graphVertices
  rw [List.mem_dedup, List.mem_flatMap]
  split at hne
  · refine ⟨e, he, ?_⟩
    cases hne
    simp
  · split at hne
    · refine ⟨e, he, ?_⟩
      cases hne
      simp
    · cases hne

theorem isWalk_end_mem (g : IngredientGraph) (b : String) :
    ∀ (vs : List String) (w : ℚ), IsWalk g b vs w → b ∈ vs
  | [v], _, h => by
    obtain ⟨h1, -⟩ := h
    rw [h1]
    exact List.mem_singleton_self _
  | v :: v' :: vs, _, h => by
    obtain ⟨we, -, w', hw, -⟩ := h
    exact List.mem_cons_of_mem _ (isWalk_end_mem g b (v' :: vs) w' hw)

theorem isWalk_tail_vertices (g : IngredientGraph) (b : String) :
    ∀ (vs : List String) (w : ℚ), IsWalk g b vs w →
      ∀ v ∈ vs.tail, v ∈ graphVertices g
  | [_], _, _ => by simp
  | v :: v' :: vs, _, h => by
    obtain ⟨we, hmem, w', hw, -⟩ := h
    intro x hx
    rcases List.mem_cons.mp hx with h' | h'
    · subst h'
      exact neighborsAll_mem_vertices g v x we hmem
    · exact isWalk_tail_vertices g b (v' :: vs) w' hw x h'

theorem simplePathsFuel_sound (g : IngredientGraph) (b : String) :
    ∀ (fuel : Nat) (allowed : List String) (a : String),
      allowed.Nodup → a ∉ allowed →
      ∀ q ∈ simplePathsFuel g fuel allowed a b,
        IsWalk g b q.1 q.2 ∧ q.1.head? = some a ∧ q.1.Nodup ∧
          ∀ v ∈ q.1, v = a ∨ v ∈ allowed := by
  intro fuel
  induction fuel with
  | zero =>
    intro allowed a hnd hna q hq
    rw [simplePathsFuel] at hq
    split at hq
    · rename_i hab
      rw [List.mem_singleton] at hq
      subst hq
      exact ⟨⟨hab, rfl⟩, rfl, by simp, by simp⟩
    · simp at hq
  | succ fuel ih =>
    intro allowed a hnd hna q hq
    rw [simplePathsFuel] at hq
    split at hq
    · rename_i hab
      rw [List.mem_singleton] at hq
      subst hq
      exact ⟨⟨hab, rfl⟩, rfl, by simp, by simp⟩
    · rw [List.mem_flatMap] at hq
      obtain ⟨p, hp, hq⟩ := hq
      obtain ⟨pn, pw⟩ := p
      split at hq
      · rename_i hpa
        rw [List.mem_map] at hq
        obtain ⟨q', hq', rfl⟩ := hq
        have hnd' : (allowed.erase pn).Nodup := hnd.erase _
        have hna' : pn ∉ allowed.erase pn := by
          intro hc
          exact absurd ((hnd.mem_erase_iff).mp hc).1 (by simp)
        obtain ⟨hw, hh, hn, hsub⟩ := ih (allowed.erase pn) pn hnd' hna' q' hq'
        have hq1 : ∃ rest, q'.1 = pn :: rest := by
          cases hq1 : q'.1 with
          | nil => rw [hq1] at hh; cases hh
          | cons v rest =>
            rw [hq1] at hh
            rw [List.head?_cons, Option.some_inj] at hh
            exact ⟨rest, by rw [hh]⟩
        obtain ⟨rest, hrest⟩ := hq1
        refine ⟨?_, rfl, ?_, ?_⟩
        · show IsWalk g b (a :: q'.1) (pw + q'.2)
          rw [hrest]
          rw [hrest] at hw
          exact ⟨pw, hp, q'.2, hw, rfl⟩
        · rw [List.nodup_cons]
          refine ⟨?_, hn⟩
          intro hc
          rcases hsub a hc with h | h
          · rw [h] at hna
            exact hna hpa
          · exact hna (List.mem_of_mem_erase h)
        · intro v hv
          rcases List.mem_cons.mp hv with h | h
          · exact Or.inl h
          · rcases hsub v h with h' | h'
            · exact Or.inr (h' ▸ hpa)
            · exact Or.inr (List.mem_of_mem_erase h')
      · simp at hq

theorem simplePathsFuel_complete (g : IngredientGraph) (b : String) :
    ∀ (vs : List String) (w : ℚ) (fuel : Nat) (allowed : List String) (a : String),
      IsWalk g b vs w → vs.head? = some a → vs.Nodup →
      (∀ v ∈ vs.tail, v ∈ allowed) → vs.tail.length ≤ fuel →
      (vs, w) ∈ simplePathsFuel g fuel allowed a b
  | [v], w, fuel, allowed, a, hw, hh, _, _, _ => by
    obtain ⟨hvb, hw0⟩ := hw
    rw [List.head?_cons, Option.some_inj] at hh
    subst hh
    subst hvb
    subst hw0
    cases fuel <;> · rw [simplePathsFuel, if_pos rfl]; exact List.mem_singleton_self _
  | v :: v' :: rest, w, fuel, allowed, a, hw, hh, hnd, htail, hlen => by
    obtain ⟨we, hmem, w', hw', rfl⟩ := hw
    rw [List.head?_cons, Option.some_inj] at hh
    subst hh
    have hab : v ≠ b := by
      intro hvb
      have hb := isWalk_end_mem g b (v' :: rest) w' hw'
      rw [List.nodup_cons] at hnd
      rw [← hvb] at hb
      exact hnd.1 hb
    match fuel, hlen with
    | fuel + 1, hlen => ?_
    rw [simplePathsFuel, if_neg hab, List.mem_flatMap]
    refine ⟨(v', we), hmem, ?_⟩
    have hv'al : v' ∈ allowed := htail v' (List.mem_cons_self _ _)
    rw [if_pos hv'al, List.mem_map]
    refine ⟨(v' :: rest, w'), ?_, rfl⟩
    rw [List.nodup_cons] at hnd
    apply simplePathsFuel_complete g b (v' :: rest) w' fuel (allowed.erase v') v' hw'
      rfl hnd.2
    · intro x hx
      have hxal : x ∈ allowed := htail x (List.mem_cons_of_mem _ hx)
      have hxv' : x ≠ v' := by
        intro hxe
        rw [List.nodup_cons] at hnd
        rw [hxe] at hx
        exact (hnd.2).1 hx
      exact (List.mem_erase_of_ne hxv').mpr hxal
    · simpa using Nat.le_of_succ_le_succ hlen

theorem isSimplePath_mem_allSimplePaths (g : IngredientGraph) (a b : String)
    (vs : List String) (w : ℚ) (hp : IsSimplePath g a b vs w) :
    (vs, w) ∈ allSimplePaths g a b := by
  obtain ⟨hw, hh, hn⟩ := hp
  obtain ⟨t, rfl⟩ : ∃ t, vs = a :: t := by
    cases vs with
    | nil => simp at hh
    | cons v t =>
      rw [List.head?_cons, Option.some_inj] at hh
      exact ⟨t, by rw [hh]⟩
  have htail : ∀ v ∈ t, v ∈ (graphVertices g).erase a := by
    intro v hv
    have hvg : v ∈ graphVertices g := isWalk_tail_vertices g b (a :: t) w hw v hv
    have hvna : v ≠ a := by
      intro he
      rw [List.nodup_cons] at hn
      rw [he] at hv
      exact hn.1 hv
    exact (List.mem_erase_of_ne hvna).mpr hvg
  have hlen : t.length ≤ ((graphVertices g).erase a).length := by
    have hndt : t.Nodup := (List.nodup_cons.mp hn).2
    exact (hndt.subperm htail).length_le
  exact simplePathsFuel_complete g b (a :: t) w _ _ a hw rfl hn htail hlen

theorem maxScoreFor_le (c : String) (s : ℚ) (l : List (String × ℚ)) :
    s ≤ maxScoreFor c s l ∧ ∀ q ∈ l, q.1 = c → q.2 ≤ maxScoreFor c s l := by
  induction l with
  | nil => exact ⟨le_refl s, by simp⟩
  | cons p rest ih =>
    unfold maxScoreFor at ih ⊢
    simp only [List.foldr_cons]
    split
    · refine ⟨le_trans ih.1 (le_qmax_right _ _), ?_⟩
      intro q hq hqc
      rcases List.mem_cons.mp hq with h | h
      · subst h; exact le_qmax_left _ _
      · exact le_trans (ih.2 q h hqc) (le_qmax_right _ _)
    · rename_i hpc
      refine ⟨ih.1, ?_⟩
      intro q hq hqc
      rcases List.mem_cons.mp hq with h | h
      · subst h; exact absurd hqc hpc
      · exact ih.2 q h hqc

theorem maxScoreFor_attained (c : String) (s : ℚ) (l : List (String × ℚ)) :
    maxScoreFor c s l = s ∨ ∃ q ∈ l, q.1 = c ∧ maxScoreFor c s l = q.2 := by
  induction l with
  | nil => exact Or.inl rfl
  | cons p rest ih =>
    unfold maxScoreFor at ih ⊢
    simp only [List.foldr_cons]
    split
    · rename_i hpc
      unfold qmax
      split
      · rcases ih with h | ⟨q, hq, hqc, hqv⟩
        · exact Or.inl h
        · exact Or.inr ⟨q, List.mem_cons_of_mem _ hq, hqc, hqv⟩
      · exact Or.inr ⟨p, List.mem_cons_self _ _, hpc, rfl⟩
    · rcases ih with h | ⟨q, hq, hqc, hqv⟩
      · exact Or.inl h
      · exact Or.inr ⟨q, List.mem_cons_of_mem _ hq, hqc, hqv⟩

theorem dedupMaxAux_spec (l : List (String × ℚ)) :
    ∀ (seen : List String), ∀ p ∈ dedupMaxAux seen l,
      seen.contains p.1 = false ∧ p ∈ l ∧ ∀ q ∈ l, q.1 = p.1 → q.2 ≤ p.2 := by
  induction l with
  | nil => intro seen p hp; simp [dedupMaxAux] at hp
  | cons x rest ih =>
    intro seen p hp
    obtain ⟨c, s⟩ := x
    unfold dedupMaxAux at hp
    split at hp
    · rename_i hseen
      obtain ⟨h1, h2, h3⟩ := ih seen p hp
      refine ⟨h1, List.mem_cons_of_mem _ h2, ?_⟩
      intro q hq hqc
      rcases List.mem_cons.mp hq with h | h
      · subst h
        have hc : c = p.1 := hqc
        rw [← hc] at h1
        rw [hseen] at h1
        cases h1
      · exact h3 q h hqc
    · rename_i hseen
      rcases List.mem_cons.mp hp with h | h
      · subst h
        refine ⟨by simpa using hseen, ?_, ?_⟩
        · rcases maxScoreFor_attained c s rest with h | ⟨q, hq, hqc, hqv⟩
          · rw [h]
            exact List.mem_cons_self _ _
          · rw [hqv, ← hqc]
            exact List.mem_cons_of_mem _ hq
        · intro q hq hqc
          rcases List.mem_cons.mp hq with h' | h'
          · subst h'
            exact (maxScoreFor_le c s rest).1
          · exact (maxScoreFor_le c s rest).2 q h' hqc
      · obtain ⟨h1, h2, h3⟩ := ih (c :: seen) p h
        rw [List.contains_cons, Bool.or_eq_false_iff] at h1
        refine ⟨h1.2, List.mem_cons_of_mem _ h2, ?_⟩
        intro q hq hqc
        rcases List.mem_cons.mp hq with h' | h'
        · subst h'
          have : p.1 = c := hqc.symm
          rw [beq_eq_false_iff_ne] at h1
          exact absurd this h1.1
        · exact h3 q h' hqc

theorem dedupMaxAux_keys_nodup (l : List (String × ℚ)) :
    ∀ seen : List String, ((dedupMaxAux seen l).map Prod.fst).Nodup := by
  induction l with
  | nil => intro seen; simp [dedupMaxAux]
  | cons x rest ih =>
    intro seen
    obtain ⟨c, s⟩ := x
    unfold dedupMaxAux
    split
    · exact ih seen
    · simp only [List.map_cons]
      rw [List.nodup_cons]
      refine ⟨?_, ih (c :: seen)⟩
      intro hc
      rw [List.mem_map] at hc
      obtain ⟨p, hp, hpc⟩ := hc
      have h1 := (dedupMaxAux_spec rest (c :: seen) p hp).1
      rw [hpc] at h1
      simp [List.contains_cons] at h1

theorem matchCount_mono (avail : List String) (x : String) (r : Recipe) :
    matchCount avail r ≤ matchCount (x :: avail) r := by
  unfold matchCount
  apply List.Sublist.length_le
  apply List.monotone_filter_right
  intro a ha
  simp only [List.contains_cons, Bool.or_eq_true]
  exact Or.inr ha

/-! ### Claim theorems -/

/-- C8: Filtering is monotonic in the available set — for every recipe and
    every available-ingredient list, adding one more available ingredient never
    decreases the recipe's match_ratio. -/
theorem C8_matchRatio_monotone (avail : List String) (x : String) (r : Recipe) :
    matchRatio avail r ≤ matchRatio (x :: avail) r := by
  unfold matchRatio
  split
  · exact le_refl 0
  · rename_i h
    have hpos : (0 : ℚ) < ((reqSet r).length : ℚ) := by
      exact_mod_cast Nat.pos_of_ne_zero h
    have hc : (matchCount avail r : ℚ) ≤ (matchCount (x :: avail) r : ℚ) := by
      exact_mod_cast matchCount_mono avail x r
    exact div_le_div_of_nonneg_right hc hpos.le

/-- C9 (counterexample): the dashboard's ingredient list is not lower-cased and
    keeps duplicates — the input "Chicken, Chicken" yields the entry "Chicken"
    twice, unlowered. -/
theorem C9_counterexample :
    ¬ NormalizedIngredientSet (parseIngredients ("Chicken, Chicken".data)) := by
  decide

/-- C9 (amended): every entry of the request's ingredient list is a nonempty,
    whitespace-trimmed comma-separated chunk of the input; entries are not
    lower-cased and duplicates are not collapsed. -/
theorem C9_parseIngredients_trimmed (s : List Char) :
    ∀ x ∈ parseIngredients s, x ≠ [] ∧ ∃ c ∈ splitOnChar ',' s, x = trimChars c := by
  intro x hx
  unfold parseIngredients at hx
  rw [List.mem_filter] at hx
  obtain ⟨hm, hne⟩ := hx
  rw [List.mem_map] at hm
  obtain ⟨c, hc, rfl⟩ := hm
  refine ⟨?_, c, hc, rfl⟩
  intro h
  rw [h] at hne
  simp at hne

/-- C9 witness: at the concrete input "Chicken, Chicken" the entry "Chicken"
    is a nonempty trimmed chunk. -/
theorem C9_parseIngredients_trimmed_witness :
    "Chicken".data ≠ [] ∧
      ∃ c ∈ splitOnChar ',' "Chicken, Chicken".data, "Chicken".data = trimChars c :=
  C9_parseIngredients_trimmed ("Chicken, Chicken".data) ("Chicken".data) (by decide)

/-- C10: unauthenticated requests to pathnames under /dashboard or /protected
    are redirected to /auth/login carrying the original pathname as
    redirectedFrom; requests to listed auth routes and public routes pass
    through regardless of authentication state. -/
theorem C10_updateSession (p : Path) :
    (("/dashboard".data <+: p ∨ "/protected".data <+: p) →
      updateSession p false = MwResponse.redirectLogin p)
    ∧ (∀ u : Bool, (authRoutes.any (fun r => r.isPrefixOf p) = true ∨ p ∈ publicRoutes) →
        updateSession p u = MwResponse.next) := by
  constructor
  · intro hd
    have hauth : authRoutes.any (fun r => r.isPrefixOf p) = false := by
      rw [List.any_eq_false]
      intro r hr
      rw [ List.isPrefixOf_iff_prefix]
      intro hpre
      rcases hd with hd | hd <;> fin_cases hr <;>
        rcases List.prefix_or_prefix_of_prefix hpre hd with h | h <;>
          revert h <;> decide
    have hpub : publicRoutes.contains p = false := by
      by_contra hc
      rw [Bool.not_eq_false, List.contains_eq_any_beq, List.any_eq_true] at hc
      obtain ⟨q, hq, hbeq⟩ := hc
      rw [beq_iff_eq] at hbeq
      subst hbeq
      fin_cases hq <;> rcases hd with hd | hd <;> revert hd <;> decide
    have hprot : protectedRoutes.any (fun r => r.isPrefixOf p) = true := by
      rw [List.any_eq_true]
      rcases hd with hd | hd
      · exact ⟨"/dashboard".data, by simp [protectedRoutes],
          ( List.isPrefixOf_iff_prefix).mpr hd⟩
      · exact ⟨"/protected".data, by simp [protectedRoutes],
          ( List.isPrefixOf_iff_prefix).mpr hd⟩
    unfold updateSession
    rw [hauth, hpub, hprot]
    simp
  · intro u h
    have hcond :
        (authRoutes.any (fun r => r.isPrefixOf p) || publicRoutes.contains p) = true := by
      rcases h with h | h
      · rw [h, Bool.true_or]
      · rw [Bool.or_eq_true]
        right
        rw [List.contains_eq_any_beq, List.any_eq_true]
        exact ⟨p, h, by simp⟩
    unfold updateSession
    rw [hcond]
    simp

/-- C10 witness: an unauthenticated request to /dashboard/settings is
    redirected to /auth/login carrying the pathname; an authenticated-or-not
    request to /about passes through. -/
theorem C10_updateSession_witness :
    updateSession "/dashboard/settings".data false
        = MwResponse.redirectLogin "/dashboard/settings".data
    ∧ updateSession "/about".data true = MwResponse.next :=
  ⟨(C10_updateSession "/dashboard/settings".data).1 (Or.inl (by decide)),
    (C10_updateSession "/about".data).2 true (Or.inr (by decide))⟩

/-- C6: every recipe returned by the suggestion pipeline carries a match_score
    in the closed interval [0,1]. -/
theorem C6_matchScore_bounds (g : IngredientGraph) (req : SuggestionRequest)
    (corpus : List Recipe) :
    ∀ s ∈ pipeline g req corpus, 0 ≤ s.matchScore ∧ s.matchScore ≤ 1 := by
  intro s hs
  obtain ⟨r, _, rfl⟩ := mem_pipeline g req corpus hs
  exact clamp01_bounds _

/-- C6 witness: the concrete enriched recipe returned by the pipeline on the
    garlic scenario has its match_score inside [0,1]. -/
theorem C6_matchScore_bounds_witness :
    0 ≤ (enrich gW reqW.available rW).matchScore
      ∧ (enrich gW reqW.available rW).matchScore ≤ 1 :=
  C6_matchScore_bounds gW reqW [rW] _ (by decide)

/-- C7 (counterexample): with empty available_ingredients, a recipe requiring
    one ingredient gets greedy score −10 (not 0) and the pipeline returns it —
    the result set is not empty. -/
theorem C7_counterexample :
    greedyScore ⟨[], [], none, 10⟩ ⟨1, ["a"], none, []⟩ ≠ 0 ∧
      pipeline ⟨[]⟩ ⟨[], [], none, 10⟩ [⟨1, ["a"], none, []⟩] ≠ [] := by
  decide

/-- C7 (amended): with empty available_ingredients every recipe has
    match_ratio 0 and greedy score `cuisine_bonus − 10·missing_count` (not 0),
    recipes are not filtered out, and every recipe the pipeline returns —
    without error — carries match_score 0. -/
theorem C7_empty_available (g : IngredientGraph) (req : SuggestionRequest)
    (corpus : List Recipe) (h : req.available = []) :
    (∀ r ∈ corpus, matchRatio req.available r = 0 ∧
        greedyScore req r = cuisineBonus req r - (missingCount req.available r : ℚ) * 10)
      ∧ ∀ s ∈ pipeline g req corpus, s.matchScore = 0 := by
  constructor
  · intro r _
    have h0 : matchRatio req.available r = 0 := by rw [h]; exact matchRatio_nil_available r
    refine ⟨h0, ?_⟩
    unfold greedyScore
    rw [h0]
    ring
  · intro s hs
    obtain ⟨r, _, rfl⟩ := mem_pipeline g req corpus hs
    show adjustedScore g req.available r = 0
    unfold adjustedScore
    rw [h, matchRatio_nil_available]
    have h2 : ((missingOf [] r).map (bestSubScore g [])).sum = 0 := by
      apply List.sum_eq_zero
      intro x hx
      rw [List.mem_map] at hx
      obtain ⟨i, _, rfl⟩ := hx
      unfold bestSubScore
      rw [subsFor_nil_available]
    rw [h2]
    norm_num [clamp01, qmax, qmin]

/-- C1: the candidate filter returns exactly the top min(50, ·) of the
    eligible corpus (dietary violators and empty-required recipes excluded),
    ordered by greedy score descending with ties broken by match_ratio
    descending then recipe id: the result has length min(50, |eligible|), is
    sorted by the candidate order, contains only eligible corpus recipes, and
    every eligible recipe left out ranks no higher than every returned one. -/
theorem C1_candidateFilter (req : SuggestionRequest) (corpus : List Recipe) :
    (candidateFilter req corpus).length = min 50 (eligible req corpus).length
    ∧ (candidateFilter req corpus).Sorted (candLE req)
    ∧ (∀ r ∈ candidateFilter req corpus,
        r ∈ corpus ∧ r.required ≠ [] ∧ violatesB req.restrictions r.dietaryTags = false)
    ∧ (∀ r ∈ corpus, r.required ≠ [] → violatesB req.restrictions r.dietaryTags = false →
        r ∉ candidateFilter req corpus →
        ∀ r' ∈ candidateFilter req corpus, candLE req r' r) := by
  refine ⟨?_, ?_, ?_, ?_⟩
  · unfold candidateFilter
    rw [List.length_take, List.length_insertionSort]
  · exact (List.sorted_insertionSort _ _).sublist (List.take_sublist _ _)
  · intro r hr
    unfold candidateFilter at hr
    have h1 := List.mem_of_mem_take hr
    rw [List.mem_insertionSort] at h1
    unfold eligible at h1
    rw [List.mem_filter] at h1
    obtain ⟨hmem, hb⟩ := h1
    rw [Bool.and_eq_true, Bool.not_eq_true', Bool.not_eq_true'] at hb
    refine ⟨hmem, ?_, hb.2⟩
    intro hnil
    rw [hnil] at hb
    simp at hb
  · intro r hrc hreq hviol hnot r' hr'
    have hre : r ∈ eligible req corpus := by
      unfold eligible
      rw [List.mem_filter]
      refine ⟨hrc, ?_⟩
      rw [Bool.and_eq_true, Bool.not_eq_true', Bool.not_eq_true']
      exact ⟨by rwa [List.isEmpty_eq_false], hviol⟩
    have hrs : r ∈ (eligible req corpus).insertionSort (candLE req) := by
      rw [List.mem_insertionSort]; exact hre
    have hsorted : ((eligible req corpus).insertionSort (candLE req)).Pairwise (candLE req) :=
      List.sorted_insertionSort _ _
    rw [← List.take_append_drop 50 ((eligible req corpus).insertionSort (candLE req)),
      List.pairwise_append] at hsorted
    have hrdrop : r ∈ ((eligible req corpus).insertionSort (candLE req)).drop 50 := by
      rw [← List.take_append_drop 50 ((eligible req corpus).insertionSort (candLE req)),
        List.mem_append] at hrs
      rcases hrs with h | h
      · exact absurd h hnot
      · exact h
    exact hsorted.2.2 r' hr' r hrdrop

/-- C1 witness: on a 51-recipe corpus the filter returns min(50,51) = 50
    recipes, and the excluded recipe (id 50) ranks no higher than the returned
    recipe with id 0. -/
theorem C1_candidateFilter_witness :
    (candidateFilter reqKap corpusW).length = min 50 (eligible reqKap corpusW).length
    ∧ candLE reqKap ⟨0, ["a"], none, []⟩ ⟨50, ["a"], none, []⟩ :=
  ⟨(C1_candidateFilter reqKap corpusW).1,
    (C1_candidateFilter reqKap corpusW).2.2.2 ⟨50, ["a"], none, []⟩ (by decide)
      (by decide) (by decide) (by decide) ⟨0, ["a"], none, []⟩ (by decide)⟩

/-- C2: similarity(a, b) equals 1/(1 + d) with d the least total weight over
    all simple paths from a to b through the full graph (all edge kinds, edge
    weight as traversal cost); it is 1 when a = b and 0 when no path exists. -/
theorem C2_similarity (g : IngredientGraph) (a b : String) :
    (a = b → similarity g a b = 1)
    ∧ ((¬ ∃ vs w, IsSimplePath g a b vs w) → similarity g a b = 0)
    ∧ (∀ vs w, IsSimplePath g a b vs w →
        ∃ d, (∃ vs' w', IsSimplePath g a b vs' w' ∧ w' = d)
          ∧ (∀ vs' w', IsSimplePath g a b vs' w' → d ≤ w')
          ∧ similarity g a b = 1 / (1 + d)) := by
  have hndv : (graphVertices g).Nodup := by
    unfold graphVertices
    exact List.nodup_dedup _
  have hndal : ((graphVertices g).erase a).Nodup := hndv.erase a
  have hnaal : a ∉ (graphVertices g).erase a := fun hc =>
    ((hndv.mem_erase_iff).mp hc).1 rfl
  refine ⟨?_, ?_, ?_⟩
  · intro hab
    subst hab
    have hself : allSimplePaths g a a = [([a], 0)] := by
      unfold allSimplePaths
      cases ((graphVertices g).erase a).length <;>
        · rw [simplePathsFuel, if_pos rfl]
    unfold similarity shortestPathLen
    rw [hself]
    norm_num [listMinQ]
  · intro hno
    have hemp : allSimplePaths g a b = [] := by
      cases hq : allSimplePaths g a b with
      | nil => rfl
      | cons q rest =>
        exfalso
        apply hno
        have hmem : q ∈ allSimplePaths g a b := by
          rw [hq]
          exact List.mem_cons_self _ _
        obtain ⟨hw, hh, hn, -⟩ :=
          simplePathsFuel_sound g b _ _ a hndal hnaal q hmem
        exact ⟨q.1, q.2, hw, hh, hn⟩
    unfold similarity shortestPathLen
    rw [hemp]
    rfl
  · intro vs w hp
    have hmem0 : (vs, w) ∈ allSimplePaths g a b :=
      isSimplePath_mem_allSimplePaths g a b vs w hp
    have hwne : ((allSimplePaths g a b).map (fun q => q.2)) ≠ [] := by
      intro hc
      rw [List.map_eq_nil_iff] at hc
      rw [hc] at hmem0
      cases hmem0
    obtain ⟨d, hmin, hdmem, hdle⟩ := listMinQ_spec _ hwne
    refine ⟨d, ?_, ?_, ?_⟩
    · rw [List.mem_map] at hdmem
      obtain ⟨q, hq, rfl⟩ := hdmem
      obtain ⟨hw', hh', hn', -⟩ :=
        simplePathsFuel_sound g b _ _ a hndal hnaal q hq
      exact ⟨q.1, q.2, ⟨hw', hh', hn'⟩, rfl⟩
    · intro vs' w' hp'
      have hmem' : (vs', w') ∈ allSimplePaths g a b :=
        isSimplePath_mem_allSimplePaths g a b vs' w' hp'
      exact hdle w' (List.mem_map.mpr ⟨(vs', w'), hmem', rfl⟩)
    · unfold similarity shortestPathLen
      rw [hmin]

/-- C2 witness: similarity is 1 on a reflexive query, 0 across the empty
    graph, and on the concrete graph the garlic–shallot similarity is
    1/(1 + d) for the least simple-path weight d, witnessed by the 2-hop path
    garlic–onion–shallot of weight 13/10. -/
theorem C2_similarity_witness :
    similarity gW "garlic" "garlic" = 1
    ∧ similarity (⟨[]⟩ : IngredientGraph) "p" "q" = 0
    ∧ (∃ d, (∃ vs' w', IsSimplePath gW "garlic" "shallot" vs' w' ∧ w' = d)
        ∧ (∀ vs' w', IsSimplePath gW "garlic" "shallot" vs' w' → d ≤ w')
        ∧ similarity gW "garlic" "shallot" = 1 / (1 + d)) :=
  ⟨(C2_similarity gW "garlic" "garlic").1 rfl,
    (C2_similarity ⟨[]⟩ "p" "q").2.1 (by
      rintro ⟨vs, w, hw, hh, -⟩
      match vs, hw, hh with
      | [v], hw, hh =>
        obtain ⟨hvb, -⟩ := hw
        rw [List.head?_cons, Option.some_inj] at hh
        rw [hh] at hvb
        exact absurd hvb (by decide)
      | v :: v' :: rest, hw, hh =>
        obtain ⟨we, hmem, -⟩ := hw
        simp [neighborsAll] at hmem),
    (C2_similarity gW "garlic" "shallot").2.2 ["garlic", "onion", "shallot"] (13/10)
      ⟨⟨1/2, by decide, 4/5, ⟨4/5, by decide, 0, ⟨rfl, rfl⟩, by norm_num⟩, by norm_num⟩,
        rfl, by decide⟩⟩

/-- C3: `substitutions(ingredient, limit)` returns the direct
    substitution-kind neighbors sorted by edge weight descending (exactly the
    top `limit` of them when enough exist); otherwise it extends the list with
    2-hop substitution paths scored as the product of the two edge weights,
    deduplicates keeping the highest score per candidate (keys are distinct
    and each kept score is the maximum over the extended list), and truncates
    to at most `limit` entries; an ingredient absent from the graph yields an
    empty result. -/
theorem C3_substitutions (g : IngredientGraph) (ing : String) (limit : Nat) :
    (substitutions g ing limit).length ≤ limit
    ∧ (directSubs g ing).Sorted wge
    ∧ (limit ≤ (directSubs g ing).length →
        substitutions g ing limit = (directSubs g ing).take limit)
    ∧ ((directSubs g ing).length < limit →
        ((substitutions g ing limit).map Prod.fst).Nodup
        ∧ ∀ p ∈ substitutions g ing limit,
            p ∈ directSubs g ing ++ (twoHopSubs g ing).insertionSort wge
            ∧ ∀ q ∈ directSubs g ing ++ (twoHopSubs g ing).insertionSort wge,
                q.1 = p.1 → q.2 ≤ p.2)
    ∧ ((∀ e ∈ g.edges, e.src ≠ ing ∧ e.dst ≠ ing) →
        substitutions g ing limit = []) := by
  refine ⟨?_, List.sorted_insertionSort _ _, ?_, ?_, ?_⟩
  · unfold substitutions
    split <;> · rw [List.length_take]; exact min_le_left _ _
  · intro h
    unfold substitutions
    rw [if_pos h]
  · intro h
    have hne : ¬ limit ≤ (directSubs g ing).length := Nat.not_le_of_lt h
    constructor
    · unfold substitutions
      rw [if_neg hne]
      exact ((dedupMaxAux_keys_nodup _ []).sublist
        ((List.take_sublist _ _).map Prod.fst))
    · intro p hp
      unfold substitutions at hp
      rw [if_neg hne] at hp
      have hp2 := List.mem_of_mem_take hp
      have := dedupMaxAux_spec
        (directSubs g ing ++ (twoHopSubs g ing).insertionSort wge) [] p hp2
      exact ⟨this.2.1, this.2.2⟩
  · intro h
    have hnk : ∀ k, neighborsOfKind g k ing = [] := by
      intro k
      unfold neighborsOfKind
      rw [List.filterMap_eq_nil_iff]
      intro e he
      simp [edgeNeighbor, (h e he).1, (h e he).2]
    have hdir : directSubs g ing = [] := by
      unfold directSubs
      rw [hnk]
      rfl
    have h2 : twoHopSubs g ing = [] := by
      unfold twoHopSubs
      rw [hnk]
      rfl
    unfold substitutions
    rw [hdir, h2]
    split <;> simp [dedupMax, dedupMaxAux]

/-- C3 witness: in the concrete graph, limit 1 returns the top direct garlic
    substitution; limit 5 extends with the 2-hop shallot path with distinct
    candidates; the absent ingredient "pepper" yields an empty result. -/
theorem C3_substitutions_witness :
    substitutions gW "garlic" 1 = (directSubs gW "garlic").take 1
    ∧ ((substitutions gW "garlic" 5).map Prod.fst).Nodup
    ∧ substitutions gW "pepper" 3 = [] :=
  ⟨(C3_substitutions gW "garlic" 1).2.2.1 (by decide),
    ((C3_substitutions gW "garlic" 5).2.2.2.1 (by decide)).1,
    (C3_substitutions gW "pepper" 3).2.2.2.2 (by decide)⟩

/-- C4: in an enriched candidate, the substitution suggestions attached to
    each missing ingredient contain only ingredients from the user's available
    set, ranked by score descending, the attached keys are exactly the missing
    ingredients, and the exposed match_score equals the clamp to [0,1] of
    match_ratio + Σ best_substitution_score / |required|. -/
theorem C4_enrichment (g : IngredientGraph) (avail : List String) (r : Recipe) :
    (∀ pr ∈ (enrich g avail r).subs,
        (∀ q ∈ pr.2, avail.contains q.1 = true) ∧ pr.2.Sorted wge)
    ∧ (enrich g avail r).subs.map Prod.fst = missingOf avail r
    ∧ (enrich g avail r).matchScore
        = clamp01 (matchRatio avail r +
            ((missingOf avail r).map (bestSubScore g avail)).sum
              / ((reqSet r).length : ℚ)) := by
  refine ⟨?_, ?_, rfl⟩
  · intro pr hpr
    have hm : pr ∈ (missingOf avail r).map (fun i => (i, subsFor g avail i)) := hpr
    rw [List.mem_map] at hm
    obtain ⟨i, _, rfl⟩ := hm
    constructor
    · intro q hq
      have hq2 : q ∈ (substitutions g i 5).filter (fun p => avail.contains p.1) := by
        unfold subsFor at hq
        rwa [List.mem_insertionSort] at hq
      exact (List.mem_filter.mp hq2).2
    · exact List.sorted_insertionSort _ _
  · show ((missingOf avail r).map (fun i => (i, subsFor g avail i))).map Prod.fst
        = missingOf avail r
    simp [List.map_map, Function.comp_def]

/-- C4 witness: in the garlic scenario every attached garlic substitution is
    available, and the exposed match_score is 39/40. -/
theorem C4_enrichment_witness :
    (∀ q ∈ ("garlic", subsFor gW reqW.available "garlic").2,
        reqW.available.contains q.1 = true)
      ∧ (enrich gW reqW.available rW).matchScore = 39/40 :=
  ⟨((C4_enrichment gW reqW.available rW).1 ("garlic", subsFor gW reqW.available "garlic")
      (by decide)).1,
    by decide⟩

theorem updateBest_good (P : ScoredRecipe → Prop) (maxR : Nat)
    (current : List ScoredRecipe) (score : ℚ) (st : BTResult)
    (hcur : current.length ≤ maxR ∧ ∀ s ∈ current, P s)
    (hst : st.best.length ≤ maxR ∧ ∀ s ∈ st.best, P s) :
    (updateBest current score st).best.length ≤ maxR ∧
      ∀ s ∈ (updateBest current score st).best, P s := by
  unfold updateBest
  split
  · exact hcur
  · exact hst

theorem backtrack_invariant (ok : ScoredRecipe → Bool) (catOf : String → Option String)
    (maxR : Nat) (cands : List ScoredRecipe) :
    ∀ (current : List ScoredRecipe) (score : ℚ) (st : BTResult),
    current.length ≤ maxR → (∀ s ∈ current, ok s = true) →
    st.best.length ≤ maxR → (∀ s ∈ st.best, ok s = true) →
    (backtrack ok catOf maxR cands current score st).best.length ≤ maxR ∧
      ∀ s ∈ (backtrack ok catOf maxR cands current score st).best, ok s = true := by
  induction cands with
  | nil =>
    intro current score st h1 h2 h3 h4
    exact updateBest_good (fun s => ok s = true) maxR current score st ⟨h1, h2⟩ ⟨h3, h4⟩
  | cons r rest ih =>
    intro current score st h1 h2 h3 h4
    rw [backtrack]
    split
    · exact updateBest_good (fun s => ok s = true) maxR current score st ⟨h1, h2⟩ ⟨h3, h4⟩
    · rename_i hlen
      split
      · exact ⟨h3, h4⟩
      · apply ih current score _ h1 h2
        · show (if ok r then _ else st).best.length ≤ maxR
          split
          · rename_i hok
            exact (ih (current ++ [r]) (comboScore catOf (current ++ [r])) st
              (by rw [List.length_append]
                  exact Nat.succ_le_of_lt (Nat.lt_of_not_le hlen))
              (by intro s hs
                  rcases List.mem_append.mp hs with h | h
                  · exact h2 s h
                  · rw [List.mem_singleton] at h; subst h; exact hok)
              h3 h4).1
          · exact h3
        · show ∀ s ∈ (if ok r then _ else st).best, ok s = true
          split
          · rename_i hok
            exact (ih (current ++ [r]) (comboScore catOf (current ++ [r])) st
              (by rw [List.length_append]
                  exact Nat.succ_le_of_lt (Nat.lt_of_not_le hlen))
              (by intro s hs
                  rcases List.mem_append.mp hs with h | h
                  · exact h2 s h
                  · rw [List.mem_singleton] at h; subst h; exact hok)
              h3 h4).2
          · exact h4

/-- C5: in every run of the backtracking combination optimizer the returned
    combination contains at most the requested maximum number of recipes and
    no recipe violating a requested hard dietary restriction (the inductive
    invariant holds in every reachable state of the search). -/
theorem C5_optimizeCombination (restrictions : List String)
    (catOf : String → Option String) (maxR : Nat) (cands : List ScoredRecipe) :
    (optimizeCombination restrictions catOf maxR cands).length ≤ maxR
      ∧ ∀ s ∈ optimizeCombination restrictions catOf maxR cands,
          violatesB restrictions s.recipe.dietaryTags = false := by
  have h := backtrack_invariant (constraintOk restrictions) catOf maxR cands [] 0 ⟨[], 0⟩
    (by simp) (by simp) (by simp) (by simp)
  refine ⟨h.1, fun s hs => ?_⟩
  have h2 := h.2 s hs
  unfold constraintOk at h2
  rwa [Bool.not_eq_true'] at h2

/-- C5 witness: on a single vegan candidate with restriction "vegan" the
    optimizer returns at most 2 recipes and the returned candidate satisfies
    the restriction. -/
theorem C5_optimizeCombination_witness :
    (optimizeCombination ["vegan"] (fun _ => none) 2 [srW]).length ≤ 2
      ∧ violatesB ["vegan"] srW.recipe.dietaryTags = false :=
  ⟨(C5_optimizeCombination ["vegan"] (fun _ => none) 2 [srW]).1,
    (C5_optimizeCombination ["vegan"] (fun _ => none) 2 [srW]).2 srW (by decide)⟩

/-- C7 witness: the concrete empty-available request gives the one-ingredient
    recipe match_ratio 0 and the pipeline returns it with match_score 0. -/
theorem C7_empty_available_witness :
    matchRatio ([] : List String) ⟨1, ["a"], none, []⟩ = 0 ∧
      (enrich ⟨[]⟩ [] ⟨1, ["a"], none, []⟩).matchScore = 0 :=
  ⟨((C7_empty_available ⟨[]⟩ ⟨[], [], none, 10⟩ [⟨1, ["a"], none, []⟩] rfl).1
      ⟨1, ["a"], none, []⟩ (by decide)).1,
    (C7_empty_available ⟨[]⟩ ⟨[], [], none, 10⟩ [⟨1, ["a"], none, []⟩] rfl).2
      (enrich ⟨[]⟩ [] ⟨1, ["a"], none, []⟩) (by decide)⟩

end FlavourGraph
